import Mathlib

/-!
Verification of the family-tree relationship graph store and layout engine.

The store operations (`addPerson`, `updatePerson`, `deletePerson`,
`addRelationship`, `removeRelationship`) are shallow embeddings of the
provider functions in the FamilyTreeContext module; the layout functions
(`findConnectedComponents`, `calculateLayout` and their helpers) embed the
FamilyTreeView module.  Persons carry their id and the four relationship
id lists; the scalar metadata fields (names, dates, notes, photo) never
influence any of the verified operations and are omitted.
-/

namespace FamilyTree

/-- One person record: the id together with the four relationship id lists. -/
structure Person where
  id : String
  parentIds : List String
  childIds : List String
  partnerIds : List String
  spouseIds : List String
deriving DecidableEq, Repr

/-- The four relationship types accepted by add/removeRelationship. -/
inductive RelType where
  | parent
  | child
  | partner
  | spouse
deriving DecidableEq, Repr

/-- A partial update (the `Partial<Person>` argument of `updatePerson`),
restricted to the fields the model tracks; absent fields are `none`. -/
structure PersonUpdate where
  id : Option String := none
  parentIds : Option (List String) := none
  childIds : Option (List String) := none
  partnerIds : Option (List String) := none
  spouseIds : Option (List String) := none
deriving DecidableEq, Repr

/-- The spread merge `{ ...person, ...updates }`. -/
def applyUpdate (u : PersonUpdate) (p : Person) : Person :=
  { id := u.id.getD p.id
    parentIds := u.parentIds.getD p.parentIds
    childIds := u.childIds.getD p.childIds
    partnerIds := u.partnerIds.getD p.partnerIds
    spouseIds := u.spouseIds.getD p.spouseIds }

/-- The forward relationship list selected by `${type}Ids`. -/
def fwdList (t : RelType) (p : Person) : List String :=
  match t with
  | .parent => p.parentIds
  | .child => p.childIds
  | .partner => p.partnerIds
  | .spouse => p.spouseIds

/-- The reciprocal list touched on the `relatedId` side. -/
def recipList (t : RelType) (p : Person) : List String :=
  match t with
  | .parent => p.childIds
  | .child => p.parentIds
  | .partner => p.partnerIds
  | .spouse => p.spouseIds

/-- The relationship type whose forward list is `t`'s reciprocal list. -/
def recipOf (t : RelType) : RelType :=
  match t with
  | .parent => .child
  | .child => .parent
  | .partner => .partner
  | .spouse => .spouse

/-- `addPerson`: append the new person to the collection. -/
def addPerson (p : Person) (ps : List Person) : List Person :=
  ps ++ [p]

/-- `updatePerson`: merge the update into the matching person. -/
def updatePerson (i : String) (u : PersonUpdate) (ps : List Person) : List Person :=
  ps.map (fun p => if p.id = i then applyUpdate u p else p)

/-- `deletePerson`: drop the person, then filter its id out of every list. -/
def deletePerson (i : String) (ps : List Person) : List Person :=
  (ps.filter (fun p => p.id != i)).map (fun p =>
    { p with
      parentIds := p.parentIds.filter (fun x => x != i)
      childIds := p.childIds.filter (fun x => x != i)
      partnerIds := p.partnerIds.filter (fun x => x != i)
      spouseIds := p.spouseIds.filter (fun x => x != i) })

/-- The per-person body of the `addRelationship` map.  The forward branch
returns only when it actually appends; otherwise control falls through to
the reciprocal branches, exactly as in the source. -/
def addRelPerson (a b : String) (t : RelType) (p : Person) : Person :=
  match t with
  | .parent =>
    if p.id = a ∧ b ∉ p.parentIds then { p with parentIds := p.parentIds ++ [b] }
    else if p.id = b ∧ a ∉ p.childIds then { p with childIds := p.childIds ++ [a] }
    else p
  | .child =>
    if p.id = a ∧ b ∉ p.childIds then { p with childIds := p.childIds ++ [b] }
    else if p.id = b ∧ a ∉ p.parentIds then { p with parentIds := p.parentIds ++ [a] }
    else p
  | .partner =>
    if p.id = a ∧ b ∉ p.partnerIds then { p with partnerIds := p.partnerIds ++ [b] }
    else if p.id = b ∧ a ∉ p.partnerIds then { p with partnerIds := p.partnerIds ++ [a] }
    else p
  | .spouse =>
    if p.id = a ∧ b ∉ p.spouseIds then { p with spouseIds := p.spouseIds ++ [b] }
    else if p.id = b ∧ a ∉ p.spouseIds then { p with spouseIds := p.spouseIds ++ [a] }
    else p

/-- `addRelationship(personId, relatedId, type)` over the collection. -/
def addRelationship (a b : String) (t : RelType) (ps : List Person) : List Person :=
  ps.map (addRelPerson a b t)

/-- The per-person body of the `removeRelationship` map.  The forward
branch always returns when the id matches, as in the source. -/
def removeRelPerson (a b : String) (t : RelType) (p : Person) : Person :=
  match t with
  | .parent =>
    if p.id = a then { p with parentIds := p.parentIds.filter (fun x => x != b) }
    else if p.id = b then { p with childIds := p.childIds.filter (fun x => x != a) }
    else p
  | .child =>
    if p.id = a then { p with childIds := p.childIds.filter (fun x => x != b) }
    else if p.id = b then { p with parentIds := p.parentIds.filter (fun x => x != a) }
    else p
  | .partner =>
    if p.id = a then { p with partnerIds := p.partnerIds.filter (fun x => x != b) }
    else if p.id = b then { p with partnerIds := p.partnerIds.filter (fun x => x != a) }
    else p
  | .spouse =>
    if p.id = a then { p with spouseIds := p.spouseIds.filter (fun x => x != b) }
    else if p.id = b then { p with spouseIds := p.spouseIds.filter (fun x => x != a) }
    else p

/-- `removeRelationship(personId, relatedId, type)` over the collection. -/
def removeRelationship (a b : String) (t : RelType) (ps : List Person) : List Person :=
  ps.map (removeRelPerson a b t)

/-- One store mutation, for reasoning about sequences of operations. -/
inductive Op where
  | addP (p : Person)
  | updateP (i : String) (u : PersonUpdate)
  | deleteP (i : String)
  | addRel (a b : String) (t : RelType)
  | removeRel (a b : String) (t : RelType)
deriving DecidableEq, Repr

/-- Apply one operation to the collection. -/
def applyOp (s : List Person) (op : Op) : List Person :=
  match op with
  | .addP p => addPerson p s
  | .updateP i u => updatePerson i u s
  | .deleteP i => deletePerson i s
  | .addRel a b t => addRelationship a b t s
  | .removeRel a b t => removeRelationship a b t s

/-- Run a sequence of operations. -/
def run (s : List Person) (ops : List Op) : List Person :=
  ops.foldl applyOp s

/-! ## Layout engine (FamilyTreeView module)

Coordinates are integers (every coordinate the code manipulates is an integer combination of the library output and the integer constants); the numeric constants are the source's
`nodeWidth = 180`, `nodeHeight = 120`, `padding = 10`, the 150/200 pixel
spacings and the `componentSpacing = 400`.  The third-party
`entitree-flex` `layoutFromMap` call is not part of the repository; it is
abstracted as an explicit function argument `f : LayoutFn` supplied to
`calculateLayout`, so every theorem below quantifies over (or picks) the
behaviour of that library. -/

/-- Lexicographic comparison of character lists by code point, the order
the JavaScript `<` applies to id strings. -/
def charListLt : List Char → List Char → Bool
  | _ :: _, [] => false
  | [], [] => false
  | [], _ :: _ => true
  | c :: cs, d :: ds =>
    if c.toNat < d.toNat then true
    else if d.toNat < c.toNat then false
    else charListLt cs ds

/-- The JavaScript `personId < partnerId` comparison on id strings. -/
def strLtb (s t : String) : Bool := charListLt s.data t.data

/-- A positioned node: the id together with its (x, y) coordinate. -/
structure LNode where
  id : String
  x : Int
  y : Int
deriving DecidableEq, Repr

/-- A rendered edge record. -/
structure LEdge where
  id : String
  source : String
  target : String
  etype : String
deriving DecidableEq, Repr

/-- One entry of the `componentTreeMap` handed to the layout library. -/
structure EntitreeEntry where
  id : String
  width : Int
  height : Int
  children : List String
  parents : List String
  spouses : List String
deriving DecidableEq, Repr

/-- The abstracted `layoutFromMap` call: root id and tree-map entries in,
positioned nodes out. -/
def LayoutFn : Type := String → List EntitreeEntry → List LNode

/-- `Map.get` on the insertion-ordered node map. -/
def mapGet (m : List LNode) (i : String) : Option LNode :=
  m.find? (fun n => n.id == i)

/-- `Map.has` on the insertion-ordered node map. -/
def mapHas (m : List LNode) (i : String) : Bool :=
  m.any (fun n => n.id == i)

/-- `Map.set`: overwrite in place if the key exists, else append. -/
def mapSet (m : List LNode) (n : LNode) : List LNode :=
  if m.any (fun e => e.id == n.id) then m.map (fun e => if e.id == n.id then n else e)
  else m ++ [n]

/-- Depth-first search of `findConnectedComponents`, with an explicit
fuel bound standing in for the unbounded source recursion (the fuel used
by the callers below always suffices).  State: (visited ids, component). -/
def dfsAux (people : List Person) :
    Nat → String → List String × List Person → List String × List Person
  | 0, _, st => st
  | fuel + 1, pid, st =>
    if st.1.contains pid then st
    else
      match people.find? (fun p => p.id == pid) with
      | none => (st.1 ++ [pid], st.2)
      | some person =>
        (person.partnerIds ++ person.spouseIds).foldl
          (fun s q => if s.1.contains q then s else dfsAux people fuel q s)
          (person.childIds.foldl
            (fun s q => if s.1.contains q then s else dfsAux people fuel q s)
            (person.parentIds.foldl
              (fun s q => if s.1.contains q then s else dfsAux people fuel q s)
              (st.1 ++ [pid], st.2 ++ [person])))

/-- Fuel that dominates the depth of any source DFS recursion: every
nested call first records a fresh id among the person ids and the ids
occurring in relationship lists. -/
def fuelBound (people : List Person) : Nat :=
  people.length +
    (people.map (fun p => p.parentIds.length + p.childIds.length +
      p.partnerIds.length + p.spouseIds.length)).sum + 1

/-- Keep a collected component only when it is non-empty. -/
def componentAppend (acc2 : List (List Person)) (comp : List Person) :
    List (List Person) :=
  if comp.isEmpty then acc2 else acc2 ++ [comp]

/-- One iteration of the outer component loop: start a DFS at every
not-yet-visited person and keep the non-empty component it collects. -/
def componentStep (people : List Person) (acc : List String × List (List Person))
    (person : Person) : List String × List (List Person) :=
  if acc.1.contains person.id then acc
  else
    ((dfsAux people (fuelBound people) person.id (acc.1, [])).1,
      componentAppend acc.2 (dfsAux people (fuelBound people) person.id (acc.1, [])).2)

/-- `findConnectedComponents`: DFS from every not-yet-visited person. -/
def findConnectedComponents (people : List Person) : List (List Person) :=
  (people.foldl (componentStep people) ([], [])).2

/-- Placeholder person used only for the impossible empty-component case. -/
def defaultPerson : Person :=
  { id := "", parentIds := [], childIds := [], partnerIds := [], spouseIds := [] }

/-- Root choice for a component: first member (in component order) with no
parents, else the component's first member. -/
def rootIdOf (component : List Person) : String :=
  match component.filter (fun p => p.parentIds.isEmpty) with
  | r :: _ => r.id
  | [] => (component.headD defaultPerson).id

/-- The `componentTreeMap` entries for one component: spouses filtered to
ids inside the component. -/
def compEntries (component : List Person) : List EntitreeEntry :=
  let compIds := component.map (fun p => p.id)
  component.map (fun p =>
    { id := p.id, width := 180, height := 120,
      children := p.childIds, parents := p.parentIds,
      spouses := (p.partnerIds ++ p.spouseIds).filter (fun s => compIds.contains s) })

/-- `isPositionOccupied`: padded axis-aligned box intersection test
against every node in the map. -/
def isPositionOccupied (m : List LNode) (x y : Int) : Bool :=
  m.any (fun n =>
    decide (x < n.x + 180 + 10) && decide (x + 180 > n.x - 10) &&
    decide (y < n.y + 120 + 10) && decide (y + 120 > n.y - 10))

/-- `findAvailablePosition`: the target if free, else the first free probe
offset, else one node step past the rightmost extent. -/
def findAvailablePosition (m : List LNode) (targetX targetY : Int)
    (preferHorizontal : Bool) : Int × Int :=
  if isPositionOccupied m targetX targetY = false then (targetX, targetY)
  else
    match (if preferHorizontal then
        [((180 : Int) + 150, (0 : Int)), (-(180 + 150), 0), (180 + 150, 120 + 200),
          (-(180 + 150), 120 + 200)]
      else
        [((0 : Int), (120 : Int) + 200), (180 + 150, 0), (-(180 + 150), 0),
          (0, -(120 + 200))]).find?
        (fun o => !(isPositionOccupied m (targetX + o.1) (targetY + o.2))) with
    | some o => (targetX + o.1, targetY + o.2)
    | none =>
      match m with
      | [] => (targetX, targetY)
      | n0 :: rest =>
        ((rest.map (fun n => n.x + 180)).foldl max (n0.x + 180) + 180 + 150, targetY)

/-- The coordinate chosen for one missing person by the straggler pass:
anchor below a positioned parent, else above a positioned child (next to
the child's other positioned parents when present), else right of a
positioned partner, else past the rightmost extent. -/
def stragglerPosition (component : List Person) (m : List LNode)
    (person : Person) : Int × Int :=
  match person.parentIds.filterMap (fun pid => mapGet m pid) with
  | parentNode :: _ =>
    match person.childIds.filterMap (fun cid => mapGet m cid) with
    | childNode :: _ =>
      findAvailablePosition m parentNode.x (childNode.y - 120 - 200) false
    | [] => findAvailablePosition m parentNode.x (parentNode.y + 120 + 200) false
  | [] =>
    match person.childIds.filterMap
        (fun cid => (mapGet m cid).map (fun n => (cid, n))) with
    | (childId, childNode) :: _ =>
      (match component.find? (fun p => p.id == childId) with
      | some child =>
        (match ((child.parentIds.filter (fun pid => pid != person.id)).filterMap
            (fun pid => mapGet m pid)).foldl
            (fun acc n =>
              match acc with
              | none => some n
              | some r => if n.x > r.x then some n else some r) none with
        | some rp => findAvailablePosition m (rp.x + 180 + 150) rp.y true
        | none => findAvailablePosition m childNode.x (childNode.y - 120 - 200) false)
      | none => findAvailablePosition m childNode.x (childNode.y - 120 - 200) false)
    | [] =>
      match (person.partnerIds ++ person.spouseIds).filterMap
          (fun qid => mapGet m qid) with
      | partnerNode :: _ =>
        findAvailablePosition m (partnerNode.x + 180 + 150) partnerNode.y true
      | [] =>
        match m with
        | [] => (0, 0)
        | n0 :: rest =>
          findAvailablePosition m
            ((rest.map (fun n => n.x + 180)).foldl max (n0.x + 180) + 180 + 150)
            ((rest.map (fun n => n.y)).foldl max n0.y) false

/-- Commit one straggler into the node map. -/
def placeStraggler (component : List Person) (m : List LNode)
    (person : Person) : List LNode :=
  mapSet m
    { id := person.id, x := (stragglerPosition component m person).1,
      y := (stragglerPosition component m person).2 }

/-- One pass of the straggler loop body: place every currently missing
component member, in component order, against the evolving map. -/
def stragglerPass (component : List Person) (m : List LNode) : List LNode :=
  (component.filter (fun p => !(mapHas m p.id))).foldl (placeStraggler component) m

/-- The `while (missingPeople.length > 0)` loop, fuelled; the callers'
fuel suffices because a single pass places every missing member. -/
def stragglerLoop : Nat → List Person → List LNode → List LNode
  | 0, _, m => m
  | fuel + 1, component, m =>
    if component.all (fun p => mapHas m p.id) then m
    else stragglerLoop fuel component (stragglerPass component m)

/-- Lay out one component: run the (abstracted) library from the chosen
root, then place stragglers until none remain. -/
def layoutComponent (f : LayoutFn) (component : List Person) : List LNode :=
  let m0 := (f (rootIdOf component) (compEntries component)).foldl mapSet []
  stragglerLoop (component.length + 1) component m0

/-- `Math.max(...nodes.map(n => n.x + nodeWidth))`, 0 for the empty map. -/
def componentWidthOf (m : List LNode) : Int :=
  match m with
  | [] => 0
  | n0 :: rest => (rest.map (fun n => n.x + 180)).foldl max (n0.x + 180)

/-- Process one component in the left-to-right assembly: append its nodes
shifted by the running offset, then advance the offset past the
component's width plus the inter-component spacing. -/
def layoutFold (f : LayoutFn) (acc : List LNode × Int)
    (component : List Person) : List LNode × Int :=
  let m1 := layoutComponent f component
  (acc.1 ++ m1.map (fun n => { n with x := n.x + acc.2 }),
    acc.2 + componentWidthOf m1 + 400)

/-- The two edge-construction loops: one directed edge per `childIds`
entry and one partner edge per `partnerIds ++ spouseIds` entry with
`personId < partnerId`, each emitted only when both endpoints are among
the laid-out node ids. -/
def buildEdges (nodeIds : List String) (people : List Person) : List LEdge :=
  people.flatMap (fun p =>
    if nodeIds.contains p.id then
      p.childIds.filterMap (fun cid =>
        if nodeIds.contains cid then
          some { id := "edge-" ++ p.id ++ "-" ++ cid, source := p.id,
                 target := cid, etype := "smoothstep" }
        else none)
    else []) ++
  people.flatMap (fun p =>
    if nodeIds.contains p.id then
      (p.partnerIds ++ p.spouseIds).filterMap (fun qid =>
        if strLtb p.id qid && nodeIds.contains qid then
          some { id := "edge-partner-" ++ p.id ++ "-" ++ qid, source := p.id,
                 target := qid, etype := "horizontal" }
        else none)
    else [])

/-- `calculateLayout`: component decomposition, per-component layout with
a running horizontal offset, then edge construction over the snapshot. -/
def calculateLayout (f : LayoutFn) (people : List Person) :
    List LNode × List LEdge :=
  if people.isEmpty then ([], [])
  else
    let allNodes := ((findConnectedComponents people).foldl (layoutFold f) ([], 0)).1
    (allNodes, buildEdges (allNodes.map (fun n => n.id)) people)

/-- Unpadded axis-aligned overlap of two node bounding boxes
(width 180, height 120), the relation the no-overlap claim is about. -/
def boxesOverlap (n k : LNode) : Bool :=
  decide (n.x < k.x + 180) && decide (k.x < n.x + 180) &&
  decide (n.y < k.y + 120) && decide (k.y < n.y + 120)

/-- No person's own id occurs in any of its own relationship lists. -/
def noSelfRel (ps : List Person) : Prop :=
  ∀ p ∈ ps, p.id ∉ p.parentIds ∧ p.id ∉ p.childIds ∧
    p.id ∉ p.partnerIds ∧ p.id ∉ p.spouseIds

instance : DecidablePred noSelfRel := fun ps => by
  unfold noSelfRel; infer_instance

/-- The reciprocal containment the symmetry invariant tracks: every person
carrying id `b` lists `a` in the reciprocal set of `t`. -/
def RelHolds (a b : String) (t : RelType) (s : List Person) : Prop :=
  ∀ p ∈ s, p.id = b → a ∈ recipList t p

instance (a b : String) (t : RelType) : DecidablePred (RelHolds a b t) := fun s => by
  unfold RelHolds; infer_instance

/-- The update field that overwrites the reciprocal list of `t`. -/
def recipUpd (t : RelType) (u : PersonUpdate) : Option (List String) :=
  match t with
  | .parent => u.childIds
  | .child => u.parentIds
  | .partner => u.partnerIds
  | .spouse => u.spouseIds

/-- Operations that leave an established reciprocal containment
`a ∈ recip t` on persons with id `b` intact: anything except removing that
very relationship (or its mirror), deleting either endpoint, overwriting
the reciprocal list of `b` by a raw field update, or re-issuing id `b` to
a fresh person. -/
def keepsRel (a b : String) (t : RelType) : Op → Prop
  | .addP p => p.id ≠ b
  | .updateP i u => u.id = none ∧ (i = b → recipUpd t u = none)
  | .deleteP i => i ≠ a ∧ i ≠ b
  | .addRel _ _ _ => True
  | .removeRel x y u => ¬(x = a ∧ y = b ∧ u = t) ∧ ¬(x = b ∧ y = a ∧ u = recipOf t)

/-- An optional replacement list avoids the id `i`. -/
def optNotMem (i : String) : Option (List String) → Prop
  | none => True
  | some l => i ∉ l

instance (i : String) : ∀ o, Decidable (optNotMem i o)
  | none => Decidable.isTrue trivial
  | some l => inferInstanceAs (Decidable (i ∉ l))

/-- Operations that never introduce a self-relationship: fresh persons
whose own id is absent from their lists, field updates that neither change
the id nor write the target's id into a list, and relationship calls with
two distinct endpoints. -/
def selfSafe : Op → Prop
  | .addP p => p.id ∉ p.parentIds ∧ p.id ∉ p.childIds ∧
      p.id ∉ p.partnerIds ∧ p.id ∉ p.spouseIds
  | .updateP i u => u.id = none ∧ optNotMem i u.parentIds ∧
      optNotMem i u.childIds ∧ optNotMem i u.partnerIds ∧ optNotMem i u.spouseIds
  | .deleteP _ => True
  | .addRel a b _ => a ≠ b
  | .removeRel _ _ _ => True

instance : DecidablePred selfSafe := fun op => by
  cases op <;> unfold selfSafe <;> infer_instance

/-! ## Concrete fixtures used by counterexamples and witnesses -/

/-- Layout stand-in returning no nodes (every person becomes a straggler). -/
def layoutNone : LayoutFn := fun _ _ => []

/-- Layout stand-in placing every supplied entry at the origin. -/
def layoutOrigin : LayoutFn := fun _ entries =>
  entries.map (fun e => { id := e.id, x := 0, y := 0 })

/-- Two mutual partners who are also mutual spouses. -/
def partnerSpousePair : List Person :=
  [{ id := "a", parentIds := [], childIds := [], partnerIds := ["b"], spouseIds := ["b"] },
   { id := "b", parentIds := [], childIds := [], partnerIds := ["a"], spouseIds := ["a"] }]

/-- Two mutual partners. -/
def partnerPair : List Person :=
  [{ id := "a", parentIds := [], childIds := [], partnerIds := ["b"], spouseIds := [] },
   { id := "b", parentIds := [], childIds := [], partnerIds := ["a"], spouseIds := [] }]

/-- A collection whose DFS component order differs from collection order
among the parentless members: a has parent c and partner b. -/
def rootOrderTrio : List Person :=
  [{ id := "a", parentIds := ["c"], childIds := [], partnerIds := ["b"], spouseIds := [] },
   { id := "b", parentIds := [], childIds := [], partnerIds := ["a"], spouseIds := [] },
   { id := "c", parentIds := [], childIds := ["a"], partnerIds := [], spouseIds := [] }]

/-! ## Helper lemmas -/

/-- A `foldl` preserves any invariant its step preserves. -/
theorem foldl_inv {α β : Type _} {g : β → α → β} {I : β → Prop} :
    ∀ (l : List α) (st : β), I st → (∀ st x, x ∈ l → I st → I (g st x)) →
      I (l.foldl g st) := by
  intro l
  induction l with
  | nil => intro st h _; exact h
  | cons x xs ih =>
    intro st h hstep
    exact ih (g st x) (hstep st x (List.mem_cons_self x xs) h)
      (fun st y hy => hstep st y (List.mem_cons_of_mem x hy))

/-- Mapping a function that fixes every member is the identity. -/
theorem map_eq_self_of {α : Type _} {h : α → α} :
    ∀ {l : List α}, (∀ x ∈ l, h x = x) → l.map h = l := by
  intro l
  induction l with
  | nil => intro _; rfl
  | cons x xs ih =>
    intro hfix
    have hx := hfix x (List.mem_cons_self x xs)
    have hxs := ih (fun y hy => hfix y (List.mem_cons_of_mem x hy))
    simp [hx, hxs]

theorem filter_bne_eq_self {l : List String} {i : String} (h : i ∉ l) :
    l.filter (fun x => x != i) = l := by
  apply List.filter_eq_self.2
  intro x hx
  simp only [bne_iff_ne, ne_eq, decide_eq_true_eq]
  exact fun hxi => h (hxi ▸ hx)

theorem not_mem_filter_bne_self (l : List String) (i : String) :
    i ∉ l.filter (fun x => x != i) := by
  intro h
  have h2 := (List.mem_filter.1 h).2
  simp at h2

theorem filter_bne_idem (l : List String) (i : String) :
    (l.filter (fun x => x != i)).filter (fun x => x != i) =
      l.filter (fun x => x != i) := by
  rw [List.filter_filter]
  apply List.filter_congr
  intro x _
  cases h : (x != i) <;> simp [h]

theorem addRelPerson_id (a b : String) (t : RelType) (p : Person) :
    (addRelPerson a b t p).id = p.id := by
  cases t <;> simp only [addRelPerson] <;> split_ifs <;> rfl

theorem removeRelPerson_id (a b : String) (t : RelType) (p : Person) :
    (removeRelPerson a b t p).id = p.id := by
  cases t <;> simp only [removeRelPerson] <;> split_ifs <;> rfl

/-! ## C2: deletePerson removes the person and cascades -/

/-- C2 counterexample: the claim is false as stated, because deleting an
id that no person carries still scrubs it from relationship lists.  Here
no person has id "g", yet `deletePerson "g"` changes the state. -/
theorem deletePerson_absent_id_changes_state :
    (∀ p ∈ [Person.mk "A" ["g"] [] [] []], p.id ≠ "g") ∧
    deletePerson "g" [Person.mk "A" ["g"] [] [] []] ≠ [Person.mk "A" ["g"] [] [] []] := by
  constructor
  · decide
  · decide

/-- C2 (amended): `deletePerson` removes exactly the persons carrying the
id, removes the id from every remaining relationship list, is idempotent,
and is a no-op when the id is neither carried nor referenced. -/
theorem deletePerson_spec (i : String) (ps : List Person) :
    ((deletePerson i ps).map Person.id = (ps.map Person.id).filter (fun x => x != i)) ∧
    (∀ p ∈ deletePerson i ps,
      i ∉ p.parentIds ∧ i ∉ p.childIds ∧ i ∉ p.partnerIds ∧ i ∉ p.spouseIds) ∧
    (deletePerson i (deletePerson i ps) = deletePerson i ps) ∧
    ((∀ p ∈ ps, p.id ≠ i ∧ i ∉ p.parentIds ∧ i ∉ p.childIds ∧
        i ∉ p.partnerIds ∧ i ∉ p.spouseIds) →
      deletePerson i ps = ps) := by
  refine ⟨?_, ?_, ?_, ?_⟩
  · induction ps with
    | nil => rfl
    | cons p ps ih =>
      by_cases hp : p.id = i
      · simp [deletePerson, List.filter_cons, hp] at ih ⊢
        simpa [deletePerson] using ih
      · simp [deletePerson, List.filter_cons, hp] at ih ⊢
        simpa [deletePerson] using ih
  · intro p hp
    simp only [deletePerson, List.mem_map] at hp
    obtain ⟨q, _, rfl⟩ := hp
    exact ⟨not_mem_filter_bne_self _ i, not_mem_filter_bne_self _ i,
      not_mem_filter_bne_self _ i, not_mem_filter_bne_self _ i⟩
  · simp only [deletePerson]
    rw [List.filter_map]
    have hfil : ∀ q : Person,
        ((fun p : Person => p.id != i) ∘ fun p : Person =>
          { p with
            parentIds := p.parentIds.filter (fun x => x != i)
            childIds := p.childIds.filter (fun x => x != i)
            partnerIds := p.partnerIds.filter (fun x => x != i)
            spouseIds := p.spouseIds.filter (fun x => x != i) }) q = (q.id != i) := by
      intro q; rfl
    rw [List.filter_congr (fun q _ => hfil q), List.filter_filter]
    have hand : ∀ q : Person, ((q.id != i) && (q.id != i)) = (q.id != i) := by
      intro q; cases h : (q.id != i) <;> simp [h]
    rw [List.filter_congr (fun q _ => hand q), List.map_map]
    apply List.map_congr_left
    intro q _
    simp only [Function.comp_apply]
    cases q with
    | mk idq pIds cIds paIds sIds =>
      simp only [Person.mk.injEq, true_and]
      exact ⟨filter_bne_idem pIds i, filter_bne_idem cIds i,
        filter_bne_idem paIds i, filter_bne_idem sIds i⟩
  · intro h
    simp only [deletePerson]
    have hfil : ps.filter (fun p => p.id != i) = ps := by
      apply List.filter_eq_self.2
      intro p hp
      simpa [bne_iff_ne] using (h p hp).1
    rw [hfil]
    apply map_eq_self_of
    intro p hp
    obtain ⟨-, h1, h2, h3, h4⟩ := h p hp
    cases p with
    | mk idq pIds cIds paIds sIds =>
      simp only [Person.mk.injEq, true_and]
      exact ⟨filter_bne_eq_self h1, filter_bne_eq_self h2,
        filter_bne_eq_self h3, filter_bne_eq_self h4⟩

/-- C2 witness: the no-op clause of `deletePerson_spec` at a concrete
store: deleting an id that is neither carried nor referenced changes
nothing. -/
theorem deletePerson_spec_witness :
    deletePerson "x" [Person.mk "A" [] [] [] []] = [Person.mk "A" [] [] [] []] :=
  (deletePerson_spec "x" [Person.mk "A" [] [] [] []]).2.2.2 (by decide)

/-! ## C3: addRelationship with a missing endpoint -/

/-- C3 counterexample: the claim is false as stated; with person "A"
present and "g" absent, `addRelationship "A" "g" parent` is not a no-op —
the forward side is applied with no existence check. -/
theorem addRelationship_missing_endpoint_changes_state :
    (∀ p ∈ [Person.mk "A" [] [] [] []], p.id ≠ "g") ∧
    addRelationship "A" "g" RelType.parent [Person.mk "A" [] [] [] []] =
      [Person.mk "A" ["g"] [] [] []] ∧
    [Person.mk "A" ["g"] [] [] []] ≠ [Person.mk "A" [] [] [] []] := by
  refine ⟨by decide, by decide, by decide⟩

/-- C3 (amended): `addRelationship` leaves the state unchanged when
NEITHER endpoint id is carried by any person; a missing single endpoint
does not stop the present side from being modified. -/
theorem addRelationship_both_absent_noop (a b : String) (t : RelType)
    (ps : List Person) (ha : ∀ p ∈ ps, p.id ≠ a) (hb : ∀ p ∈ ps, p.id ≠ b) :
    addRelationship a b t ps = ps := by
  apply map_eq_self_of
  intro p hp
  have hpa := ha p hp
  have hpb := hb p hp
  cases t <;> simp [addRelPerson, hpa, hpb]

/-- C3 witness: `addRelationship_both_absent_noop` at a concrete store in
which neither "x" nor "y" exists. -/
theorem addRelationship_both_absent_noop_witness :
    addRelationship "x" "y" RelType.parent [Person.mk "A" [] [] [] []] =
      [Person.mk "A" [] [] [] []] :=
  addRelationship_both_absent_noop "x" "y" RelType.parent
    [Person.mk "A" [] [] [] []] (by decide) (by decide)

/-! ## C4: idempotence of addRelationship, no-op remove of absent pairs -/

/-- Per-person idempotence of the add body, for distinct endpoints. -/
theorem addRelPerson_idem {a b : String} (t : RelType) (p : Person)
    (hab : a ≠ b) :
    addRelPerson a b t (addRelPerson a b t p) = addRelPerson a b t p := by
  have hba : b ≠ a := fun h => hab h.symm
  cases t <;>
    · simp only [addRelPerson]
      split_ifs with h1 h2 <;>
        simp_all [addRelPerson, hab, hba, List.mem_append]

/-- C4 counterexample: the claim is false as stated; with equal endpoint
ids, the second application mutates the state again (the first call set
only the forward side, the second sets the reciprocal side). -/
theorem addRelationship_twice_self_differs :
    addRelationship "A" "A" RelType.parent
        (addRelationship "A" "A" RelType.parent [Person.mk "A" [] [] [] []]) ≠
      addRelationship "A" "A" RelType.parent [Person.mk "A" [] [] [] []] := by
  decide

/-- C4 (amended): for distinct ids, applying `addRelationship` twice
equals applying it once; and `removeRelationship` of a pair absent from
both relevant lists leaves the state unchanged. -/
theorem addRelationship_idem_removeRelationship_absent_noop
    (a b : String) (t : RelType) (ps : List Person) :
    (a ≠ b →
      addRelationship a b t (addRelationship a b t ps) =
        addRelationship a b t ps) ∧
    ((∀ p ∈ ps, (p.id = a → b ∉ fwdList t p) ∧ (p.id = b → a ∉ recipList t p)) →
      removeRelationship a b t ps = ps) := by
  constructor
  · intro hab
    simp only [addRelationship, List.map_map]
    apply List.map_congr_left
    intro p _
    exact addRelPerson_idem t p hab
  · intro habs
    apply map_eq_self_of
    intro p hp
    obtain ⟨hfa, hfb⟩ := habs p hp
    cases t <;>
      · simp only [removeRelPerson]
        split_ifs with h1 h2 <;>
          first
          | rfl
          | (cases p with
             | mk idq pIds cIds paIds sIds =>
               simp only [Person.mk.injEq, true_and]
               simp_all [fwdList, recipList, filter_bne_eq_self])

/-- C4 witness: `addRelationship_idem_removeRelationship_absent_noop` at a
concrete two-person store with distinct ids and no existing relationship. -/
theorem addRelationship_idem_witness :
    addRelationship "a" "b" RelType.partner
        (addRelationship "a" "b" RelType.partner
          [Person.mk "a" [] [] [] [], Person.mk "b" [] [] [] []]) =
      addRelationship "a" "b" RelType.partner
        [Person.mk "a" [] [] [] [], Person.mk "b" [] [] [] []] ∧
    removeRelationship "a" "b" RelType.partner
        [Person.mk "a" [] [] [] [], Person.mk "b" [] [] [] []] =
      [Person.mk "a" [] [] [] [], Person.mk "b" [] [] [] []] :=
  ⟨(addRelationship_idem_removeRelationship_absent_noop "a" "b" RelType.partner
      [Person.mk "a" [] [] [] [], Person.mk "b" [] [] [] []]).1 (by decide),
   (addRelationship_idem_removeRelationship_absent_noop "a" "b" RelType.partner
      [Person.mk "a" [] [] [] [], Person.mk "b" [] [] [] []]).2 (by decide)⟩

/-! ## C5: self-relationships in reachable states -/

/-- C5 counterexample: the claim is false as stated; a self-relationship
is reachable from the empty store with the store's own operations. -/
theorem self_relationship_reachable :
    ¬ noSelfRel (run []
      [Op.addP (Person.mk "A" [] [] [] []), Op.addRel "A" "A" RelType.parent]) := by
  decide

/-- `applyOp` preserves the absence of self-relationships for self-safe
operations. -/
theorem noSelfRel_step {s : List Person} {op : Op} (hop : selfSafe op)
    (hs : noSelfRel s) : noSelfRel (applyOp s op) := by
  cases op with
  | addP p =>
    intro q hq
    rcases List.mem_append.1 hq with hq | hq
    · exact hs q hq
    · rcases List.mem_singleton.1 hq with rfl
      exact hop
  | updateP i u =>
    intro q hq
    simp only [applyOp, updatePerson, List.mem_map] at hq
    obtain ⟨p, hp, rfl⟩ := hq
    obtain ⟨hid, h1, h2, h3, h4⟩ := hop
    by_cases hpi : p.id = i
    · rw [if_pos hpi]
      obtain ⟨k1, k2, k3, k4⟩ := hs p hp
      have hqid : (applyUpdate u p).id = p.id := by
        simp [applyUpdate, hid]
      rw [hqid]
      refine ⟨?_, ?_, ?_, ?_⟩
      · rcases hu : u.parentIds with _ | l
        · simpa [applyUpdate, hu] using k1
        · rw [hu] at h1; simpa [applyUpdate, hu, hpi, optNotMem] using h1
      · rcases hu : u.childIds with _ | l
        · simpa [applyUpdate, hu] using k2
        · rw [hu] at h2; simpa [applyUpdate, hu, hpi, optNotMem] using h2
      · rcases hu : u.partnerIds with _ | l
        · simpa [applyUpdate, hu] using k3
        · rw [hu] at h3; simpa [applyUpdate, hu, hpi, optNotMem] using h3
      · rcases hu : u.spouseIds with _ | l
        · simpa [applyUpdate, hu] using k4
        · rw [hu] at h4; simpa [applyUpdate, hu, hpi, optNotMem] using h4
    · simpa [hpi] using hs p hp
  | deleteP i =>
    intro q hq
    simp only [applyOp, deletePerson, List.mem_map] at hq
    obtain ⟨p, hp, rfl⟩ := hq
    have hp2 := List.mem_of_mem_filter hp
    obtain ⟨k1, k2, k3, k4⟩ := hs p hp2
    refine ⟨?_, ?_, ?_, ?_⟩ <;>
      · intro hmem
        first
        | exact k1 (List.mem_of_mem_filter hmem)
        | exact k2 (List.mem_of_mem_filter hmem)
        | exact k3 (List.mem_of_mem_filter hmem)
        | exact k4 (List.mem_of_mem_filter hmem)
  | addRel a b t =>
    intro q hq
    simp only [applyOp, addRelationship, List.mem_map] at hq
    obtain ⟨p, hp, rfl⟩ := hq
    obtain ⟨k1, k2, k3, k4⟩ := hs p hp
    have hab : a ≠ b := hop
    cases t <;>
      · simp only [addRelPerson]
        split_ifs with h1 h2 <;> simp_all [List.mem_append]
  | removeRel a b t =>
    intro q hq
    simp only [applyOp, removeRelationship, List.mem_map] at hq
    obtain ⟨p, hp, rfl⟩ := hq
    obtain ⟨k1, k2, k3, k4⟩ := hs p hp
    cases t <;>
      · simp only [removeRelPerson]
        split_ifs with h1 h2 <;>
          refine ⟨?_, ?_, ?_, ?_⟩ <;>
            first
            | assumption
            | (intro hmem; first
                | exact k1 (List.mem_of_mem_filter hmem)
                | exact k2 (List.mem_of_mem_filter hmem)
                | exact k3 (List.mem_of_mem_filter hmem)
                | exact k4 (List.mem_of_mem_filter hmem))

/-- C5 (amended): every state reachable from the empty collection via
self-safe operations — fresh-id `addPerson`, id-preserving non-self
`updatePerson`, any `deletePerson`/`removeRelationship`, and
`addRelationship` with distinct endpoints — has no self-relationship. -/
theorem noSelfRel_reachable (ops : List Op) (hops : ∀ op ∈ ops, selfSafe op) :
    noSelfRel (run [] ops) := by
  unfold run
  apply foldl_inv (I := noSelfRel)
  · intro p hp
    cases hp
  · intro st op hmem hst
    exact noSelfRel_step (hops op hmem) hst

/-- C5 witness: `noSelfRel_reachable` on a concrete self-safe history. -/
theorem noSelfRel_reachable_witness :
    noSelfRel (run []
      [Op.addP (Person.mk "A" [] [] [] []), Op.addP (Person.mk "B" [] [] [] []),
       Op.addRel "A" "B" RelType.parent]) :=
  noSelfRel_reachable _ (by decide)

/-! ## C1: relationship symmetry and its persistence -/

/-- C1 counterexample: the claim is false as stated; with equal ids (A = B,
both "present in the store"), `addRelationship` sets only the forward
side, so the reciprocal set does not contain the id afterwards. -/
theorem addRelationship_self_no_reciprocal :
    ("A" ∈ ([Person.mk "A" [] [] [] []]).map Person.id) ∧
    addRelationship "A" "A" RelType.parent [Person.mk "A" [] [] [] []] =
      [Person.mk "A" ["A"] [] [] []] ∧
    ¬ RelHolds "A" "A" RelType.parent
      (addRelationship "A" "A" RelType.parent [Person.mk "A" [] [] [] []]) := by
  refine ⟨by decide, by decide, by decide⟩

/-- Immediately after `addRelationship a b t` with distinct endpoints,
every person carrying id `b` lists `a` reciprocally. -/
theorem relHolds_after_add {a b : String} (t : RelType) (s : List Person)
    (hab : a ≠ b) : RelHolds a b t (addRelationship a b t s) := by
  intro p hp hid
  simp only [addRelationship, List.mem_map] at hp
  obtain ⟨q, hq, rfl⟩ := hp
  rw [addRelPerson_id] at hid
  have hqa : ¬(q.id = a) := by rw [hid]; exact fun h => hab h.symm
  cases t <;>
    · simp only [addRelPerson]
      split_ifs with h1 h2 <;> simp_all [recipList, List.mem_append]

/-- The add body never removes anything from a reciprocal list. -/
theorem recipList_subset_addRelPerson (x y : String) (u t : RelType)
    (p : Person) : recipList t p ⊆ recipList t (addRelPerson x y u p) := by
  cases u <;> cases t <;>
    · simp only [addRelPerson]
      split_ifs <;> (intro z hz; simp_all [recipList, List.mem_append])

/-- One step of any `keepsRel`-operation preserves the reciprocal
containment. -/
theorem relHolds_step {a b : String} {t : RelType} {s : List Person}
    {op : Op} (_hab : a ≠ b) (hop : keepsRel a b t op)
    (hs : RelHolds a b t s) : RelHolds a b t (applyOp s op) := by
  cases op with
  | addP p =>
    intro q hq hqid
    rcases List.mem_append.1 hq with hq | hq
    · exact hs q hq hqid
    · rcases List.mem_singleton.1 hq with rfl
      exact absurd hqid hop
  | updateP i u =>
    obtain ⟨hid, hrecip⟩ := hop
    intro q hq hqid
    simp only [applyOp, updatePerson, List.mem_map] at hq
    obtain ⟨p, hp, rfl⟩ := hq
    by_cases hpi : p.id = i
    · rw [if_pos hpi] at hqid ⊢
      have hup : (applyUpdate u p).id = p.id := by simp [applyUpdate, hid]
      rw [hup] at hqid
      have hib : i = b := by rw [← hpi, hqid]
      have hnone := hrecip hib
      have ha := hs p hp hqid
      cases t <;> simp_all [applyUpdate, recipList, recipUpd]
    · rw [if_neg hpi] at hqid ⊢
      exact hs p hp hqid
  | deleteP i =>
    obtain ⟨hia, hib⟩ := hop
    intro q hq hqid
    simp only [applyOp, deletePerson, List.mem_map] at hq
    obtain ⟨p, hp, rfl⟩ := hq
    have hqid2 : p.id = b := hqid
    have ha := hs p (List.mem_of_mem_filter hp) hqid2
    have hai : (a != i) = true := by simpa [bne_iff_ne] using fun h => hia h.symm
    cases t <;> simp_all [recipList, List.mem_filter]
  | addRel x y u =>
    intro q hq hqid
    simp only [applyOp, addRelationship, List.mem_map] at hq
    obtain ⟨p, hp, rfl⟩ := hq
    rw [addRelPerson_id] at hqid
    exact recipList_subset_addRelPerson x y u t p (hs p hp hqid)
  | removeRel x y u =>
    obtain ⟨hex1, hex2⟩ := hop
    intro q hq hqid
    simp only [applyOp, removeRelationship, List.mem_map] at hq
    obtain ⟨p, hp, rfl⟩ := hq
    rw [removeRelPerson_id] at hqid
    have ha := hs p hp hqid
    cases u <;> cases t <;>
      · simp only [removeRelPerson]
        split_ifs with h1 h2 <;>
          simp_all [recipList, recipOf, List.mem_filter, bne_iff_ne] <;>
          first
          | exact fun h => hex1 h.symm
          | exact fun h => hex2 h.symm

/-- C1 (amended): for distinct present ids a ≠ b, after
`addRelationship a b t` the reciprocal set on `b`'s person contains `a`
(both sides set by the one map over the collection), and the containment
persists through any subsequent operations that avoid removing that very
relationship (or its mirror), deleting either endpoint, overwriting `b`'s
reciprocal list via `updatePerson`, or reusing id `b` for a new person. -/
theorem addRelationship_symmetry_persists (a b : String) (t : RelType)
    (s : List Person) (ops : List Op) (hab : a ≠ b)
    (_hA : a ∈ s.map Person.id) (_hB : b ∈ s.map Person.id)
    (hops : ∀ op ∈ ops, keepsRel a b t op) :
    RelHolds a b t (addRelationship a b t s) ∧
    RelHolds a b t (run (addRelationship a b t s) ops) := by
  refine ⟨relHolds_after_add t s hab, ?_⟩
  unfold run
  apply foldl_inv (I := RelHolds a b t)
  · exact relHolds_after_add t s hab
  · intro st op hmem hst
    exact relHolds_step hab (hops op hmem) hst

instance (a b : String) (t : RelType) : DecidablePred (keepsRel a b t) :=
  fun op => by cases op <;> unfold keepsRel <;> infer_instance

/-- C1 witness: `addRelationship_symmetry_persists` on a concrete store
and a concrete later history that keeps the relationship intact. -/
theorem addRelationship_symmetry_persists_witness :
    RelHolds "a" "b" RelType.parent
      (run (addRelationship "a" "b" RelType.parent
          [Person.mk "a" [] [] [] [], Person.mk "b" [] [] [] [],
           Person.mk "c" [] [] [] []])
        [Op.deleteP "c", Op.addRel "b" "c" RelType.partner,
         Op.removeRel "a" "b" RelType.partner]) :=
  (addRelationship_symmetry_persists "a" "b" RelType.parent
    [Person.mk "a" [] [] [] [], Person.mk "b" [] [] [] [],
     Person.mk "c" [] [] [] []]
    [Op.deleteP "c", Op.addRel "b" "c" RelType.partner,
     Op.removeRel "a" "b" RelType.partner]
    (by decide) (by decide) (by decide) (by decide)).2

/-! ## C8: layout determinism -/

/-- C8: the layout is a pure function of the snapshot (and of the layout
library's behaviour): equal inputs give identical node and edge output.
The embedding's ordered lists mirror the insertion-ordered iteration of
the source's Maps and Sets, so no unordered iteration is involved. -/
theorem calculateLayout_deterministic (f : LayoutFn)
    (people1 people2 : List Person) (h : people1 = people2) :
    calculateLayout f people1 = calculateLayout f people2 := by
  rw [h]

/-- C8 witness: two runs on the same concrete snapshot coincide. -/
theorem calculateLayout_deterministic_witness :
    calculateLayout layoutNone partnerPair = calculateLayout layoutNone partnerPair :=
  calculateLayout_deterministic layoutNone partnerPair partnerPair rfl

/-! ## C10: root selection for the hierarchical pass -/

/-- C10 counterexample: the claim is false as stated.  In this collection
the only component is discovered in DFS order a, c, b; both b and c are
parentless, b precedes c in collection order, yet the chosen root is c. -/
theorem root_not_first_in_collection_order :
    (findConnectedComponents rootOrderTrio).map (fun c => c.map Person.id) =
      [["a", "c", "b"]] ∧
    ((rootOrderTrio.filter (fun p => p.parentIds.isEmpty)).map Person.id) =
      ["b", "c"] ∧
    rootIdOf ((findConnectedComponents rootOrderTrio).headD []) = "c" ∧
    "c" ≠ "b" := by
  refine ⟨by decide, by decide, by decide, by decide⟩

/-- C10 (amended): the root passed to the hierarchical pass is the first
person with empty `parentIds` in the component's own (DFS discovery)
order — not in collection order — and when no member is parentless it is
the component's first member. -/
theorem rootIdOf_spec (component pre post : List Person) (p : Person) :
    (component = pre ++ p :: post → p.parentIds = [] →
      (∀ q ∈ pre, q.parentIds ≠ []) → rootIdOf component = p.id) ∧
    ((∀ q ∈ component, q.parentIds ≠ []) →
      rootIdOf component = (component.headD defaultPerson).id) := by
  constructor
  · rintro rfl hpar hpre
    have hprefil : pre.filter (fun q => q.parentIds.isEmpty) = [] := by
      apply List.filter_eq_nil_iff.2
      intro q hq
      simpa [List.isEmpty_iff] using hpre q hq
    have hp : p.parentIds.isEmpty = true := by simp [hpar]
    simp [rootIdOf, List.filter_append, hprefil, List.filter_cons, hp]
  · intro hall
    have hfil : component.filter (fun q => q.parentIds.isEmpty) = [] := by
      apply List.filter_eq_nil_iff.2
      intro q hq
      simpa [List.isEmpty_iff] using hall q hq
    simp [rootIdOf, hfil]

/-- C10 witness: `rootIdOf_spec` on the concrete DFS component, where the
first parentless member in component order is "c". -/
theorem rootIdOf_spec_witness :
    rootIdOf [Person.mk "a" ["c"] [] ["b"] [],
      Person.mk "c" [] ["a"] [] [],
      Person.mk "b" [] [] ["a"] []] = "c" :=
  (rootIdOf_spec
    [Person.mk "a" ["c"] [] ["b"] [], Person.mk "c" [] ["a"] [] [],
     Person.mk "b" [] [] ["a"] []]
    [Person.mk "a" ["c"] [] ["b"] []]
    [Person.mk "b" [] [] ["a"] []]
    (Person.mk "c" [] ["a"] [] [])).1 (by decide) (by decide) (by decide)

/-! ## C7: collision avoidance -/

/-- Every element bound of a `foldl max`. -/
theorem le_foldl_max (l : List Int) (d : Int) :
    d ≤ l.foldl max d ∧ ∀ x ∈ l, x ≤ l.foldl max d := by
  induction l generalizing d with
  | nil => exact ⟨le_refl d, by intro x hx; cases hx⟩
  | cons y ys ih =>
    obtain ⟨h1, h2⟩ := ih (max d y)
    refine ⟨le_trans (le_max_left d y) h1, ?_⟩
    intro x hx
    rcases List.mem_cons.1 hx with rfl | hx
    · exact le_trans (le_max_right d x) h1
    · exact h2 x hx

/-- The rightmost-extent fallback lands strictly right of every committed
box, so it always passes the padded test. -/
theorem rightmost_not_occupied (n0 : LNode) (rest : List LNode) (ty : Int) :
    isPositionOccupied (n0 :: rest)
      ((rest.map (fun n => n.x + 180)).foldl max (n0.x + 180) + 180 + 150)
      ty = false := by
  set M := (rest.map (fun n => n.x + 180)).foldl max (n0.x + 180) with hM
  simp only [isPositionOccupied, List.any_eq_false]
  intro n hn
  have hbound : n.x + 180 ≤ M := by
    rw [hM]
    rcases List.mem_cons.1 hn with rfl | hn
    · exact (le_foldl_max _ _).1
    · exact (le_foldl_max _ _).2 _ (List.mem_map_of_mem (fun n => n.x + 180) hn)
  intro hcontra
  simp only [Bool.and_eq_true, decide_eq_true_eq] at hcontra
  obtain ⟨⟨⟨hA, _⟩, _⟩, _⟩ := hcontra
  omega

/-- The probe result of `findAvailablePosition` never collides with the
already-committed boxes (under the code's own padded test). -/
theorem findAvailablePosition_not_occupied (m : List LNode) (tx ty : Int)
    (pref : Bool) :
    isPositionOccupied m (findAvailablePosition m tx ty pref).1
      (findAvailablePosition m tx ty pref).2 = false := by
  by_cases h0 : isPositionOccupied m tx ty = false
  · simp [findAvailablePosition, h0]
  · rw [findAvailablePosition.eq_def, if_neg h0]
    split
    next o heq =>
      have := List.find?_some heq
      simpa using this
    next heq =>
      split
      next => rfl
      next n0 rest => exact rightmost_not_occupied n0 rest ty

set_option maxHeartbeats 1000000 in
/-- C7 (amended): every coordinate committed by the STRAGGLER pass is
collision-tested: the position chosen for a missing person never overlaps
(under the source's padded box test) any box already in the node map.
The hierarchical pass's own coordinates are committed untested — see the
counterexample — so the claim's blanket no-overlap guarantee does not
hold. -/
theorem stragglerPosition_not_occupied (component : List Person)
    (m : List LNode) (person : Person) :
    isPositionOccupied m (stragglerPosition component m person).1
      (stragglerPosition component m person).2 = false := by
  unfold stragglerPosition
  repeat' split
  all_goals first
    | rfl
    | apply findAvailablePosition_not_occupied

/-- C7 counterexample: the claim is false as stated; positions produced by
the hierarchical (library) pass are committed without any collision test,
so the final output can contain two distinct nodes with overlapping
boxes. -/
theorem hierarchical_positions_not_collision_checked :
    (calculateLayout layoutOrigin partnerPair).1 =
      [LNode.mk "a" 0 0, LNode.mk "b" 0 0] ∧
    boxesOverlap (LNode.mk "a" 0 0) (LNode.mk "b" 0 0) = true := by
  refine ⟨by decide, by decide⟩

/-! ## C6 machinery: the DFS partitions the collection -/

theorem contains_iff_mem (l : List String) (x : String) :
    l.contains x = true ↔ x ∈ l := by
  simp

/-- Visited ids only grow along any DFS-style fold. -/
theorem foldl_fst_mono {α : Type _} {g : List String × α → String → List String × α}
    (hg : ∀ s q, s.1 ⊆ (g s q).1) :
    ∀ (l : List String) (s : List String × α), s.1 ⊆ (l.foldl g s).1 := by
  intro l
  induction l with
  | nil => intro s x hx; exact hx
  | cons q qs ih => intro s x hx; exact ih (g s q) (hg s q hx)

/-- The visited set only grows through `dfsAux`. -/
theorem dfs_vis_mono (people : List Person) :
    ∀ (fuel : Nat) (pid : String) (st : List String × List Person),
      st.1 ⊆ (dfsAux people fuel pid st).1 := by
  intro fuel
  induction fuel with
  | zero => intro pid st x hx; exact hx
  | succ fuel ih =>
    intro pid st
    simp only [dfsAux]
    split
    · exact fun x hx => hx
    · split
      · exact fun x hx => List.mem_append_left _ hx
      · have hmono := foldl_fst_mono
          (g := fun (s : List String × List Person) q =>
            if s.1.contains q then s else dfsAux people fuel q s)
          (fun s q => by
            dsimp only
            split
            · exact fun x hx => hx
            · exact ih q s)
        intro x hx
        exact hmono _ _ (hmono _ _ (hmono _ _ (List.mem_append_left _ hx)))

/-- After a `dfsAux` call with positive fuel the start id is visited. -/
theorem dfs_vis_start (people : List Person) (fuel : Nat) (pid : String)
    (st : List String × List Person) :
    pid ∈ (dfsAux people (fuel + 1) pid st).1 := by
  simp only [dfsAux]
  split
  next h => exact (contains_iff_mem _ _).1 h
  next h =>
    split
    · exact List.mem_append_right _ (List.mem_singleton.2 rfl)
    · have hmono := foldl_fst_mono
        (g := fun (s : List String × List Person) q =>
          if s.1.contains q then s else dfsAux people fuel q s)
        (fun s q => by
          dsimp only
          split
          · exact fun x hx => hx
          · exact dfs_vis_mono people fuel q s)
      exact hmono _ _ (hmono _ _ (hmono _ _
        (List.mem_append_right _ (List.mem_singleton.2 rfl))))

/-- The DFS state invariant relative to the persons `D` already collected
into earlier components: visited person ids are exactly the collected
persons, collected ids are distinct, and collected persons come from the
collection. -/
def DfsInv (people D : List Person) (st : List String × List Person) : Prop :=
  (∀ p ∈ people, (p.id ∈ st.1 ↔ p ∈ D ++ st.2)) ∧
  ((D ++ st.2).map Person.id).Nodup ∧
  (∀ p ∈ D ++ st.2, p ∈ people)

theorem dfs_inv (people : List Person) (hN : (people.map Person.id).Nodup) :
    ∀ (fuel : Nat) (pid : String) (D : List Person)
      (st : List String × List Person),
      DfsInv people D st → DfsInv people D (dfsAux people fuel pid st) := by
  intro fuel
  induction fuel with
  | zero => intro pid D st h; exact h
  | succ fuel ih =>
    intro pid D st h
    simp only [dfsAux]
    split
    · exact h
    next hvis =>
      split
      next hfind =>
        obtain ⟨h1, h2, h3⟩ := h
        refine ⟨?_, h2, h3⟩
        intro p hp
        rw [← h1 p hp]
        constructor
        · intro hmem
          rcases List.mem_append.1 hmem with hm | hm
          · exact hm
          · have hpid := List.mem_singleton.1 hm
            have hne := List.find?_eq_none.1 hfind p hp
            simp only [beq_iff_eq, Bool.not_eq_true, decide_eq_false_iff_not] at hne
            exact absurd hpid (by simpa using hne)
        · exact fun hm => List.mem_append_left _ hm
      next person hfind =>
        have hperson_mem : person ∈ people := List.mem_of_find?_eq_some hfind
        have hpid_eq : person.id = pid := by
          have := List.find?_some hfind
          simpa using this
        obtain ⟨h1, h2, h3⟩ := h
        have hpid_not_vis : pid ∉ st.1 := fun hc =>
          hvis ((contains_iff_mem _ _).2 hc)
        have hstep : DfsInv people D (st.1 ++ [pid], st.2 ++ [person]) := by
          refine ⟨?_, ?_, ?_⟩
          · intro p hp
            have hh := h1 p hp
            simp only [List.mem_append, List.mem_singleton] at hh ⊢
            constructor
            · rintro (hm | hm)
              · rcases hh.1 hm with hD | hs2
                · exact Or.inl hD
                · exact Or.inr (Or.inl hs2)
              · refine Or.inr (Or.inr ?_)
                exact List.inj_on_of_nodup_map hN hp hperson_mem
                  (by rw [hm, hpid_eq])
            · rintro (hD | hs2 | rfl)
              · exact Or.inl (hh.2 (Or.inl hD))
              · exact Or.inl (hh.2 (Or.inr hs2))
              · exact Or.inr hpid_eq
          · have hrw : (D ++ (st.2 ++ [person])).map Person.id =
                ((D ++ st.2).map Person.id) ++ [person.id] := by simp
            rw [hrw, List.nodup_append]
            refine ⟨h2, List.nodup_singleton _, ?_⟩
            intro x hx hx2
            rcases List.mem_singleton.1 hx2 with rfl
            obtain ⟨q, hq, hqid⟩ := List.mem_map.1 hx
            have hq_people := h3 q hq
            have : q.id ∈ st.1 := (h1 q hq_people).2 hq
            rw [hqid, hpid_eq] at this
            exact hpid_not_vis this
          · intro p hp
            simp only [List.mem_append, List.mem_singleton] at hp
            rcases hp with hD | hs | rfl
            · exact h3 p (List.mem_append_left _ hD)
            · exact h3 p (List.mem_append_right _ hs)
            · exact hperson_mem
        have hpres : ∀ (l : List String) (s : List String × List Person),
            DfsInv people D s →
            DfsInv people D (l.foldl
              (fun s q => if s.1.contains q then s else dfsAux people fuel q s) s) := by
          intro l s hs
          apply foldl_inv l s hs
          intro s' q _ hs'
          dsimp only
          split
          · exact hs'
          · exact ih q D s' hs'
        exact hpres _ _ (hpres _ _ (hpres _ _ hstep))

/-- The outer component-loop invariant: visited ids are exactly the ids
of the persons collected so far, collected ids are distinct, collected
persons come from the collection. -/
def CompInv (people : List Person)
    (acc : List String × List (List Person)) : Prop :=
  (∀ p ∈ people, (p.id ∈ acc.1 ↔ p ∈ acc.2.flatten)) ∧
  ((acc.2.flatten).map Person.id).Nodup ∧
  (∀ p ∈ acc.2.flatten, p ∈ people)

theorem componentAppend_flatten (L : List (List Person)) (l : List Person) :
    (componentAppend L l).flatten = L.flatten ++ l := by
  unfold componentAppend
  rcases l with _ | ⟨x, xs⟩ <;> simp [List.isEmpty]

theorem componentStep_inv (people : List Person)
    (hN : (people.map Person.id).Nodup) (acc : List String × List (List Person))
    (person : Person) (h : CompInv people acc) :
    CompInv people (componentStep people acc person) ∧
    acc.1 ⊆ (componentStep people acc person).1 := by
  unfold componentStep
  split
  · exact ⟨h, fun x hx => hx⟩
  · obtain ⟨h1, h2, h3⟩ := h
    have hd : DfsInv people acc.2.flatten (acc.1, []) := by
      refine ⟨?_, by simpa using h2, by simpa using h3⟩
      intro p hp
      simpa using h1 p hp
    obtain ⟨g1, g2, g3⟩ := dfs_inv people hN (fuelBound people) person.id
      acc.2.flatten (acc.1, []) hd
    refine ⟨⟨?_, ?_, ?_⟩, ?_⟩
    · intro p hp
      rw [componentAppend_flatten]
      exact g1 p hp
    · rw [componentAppend_flatten]
      exact g2
    · intro p hp
      rw [componentAppend_flatten] at hp
      exact g3 p hp
    · exact dfs_vis_mono people (fuelBound people) person.id (acc.1, [])

theorem comp_fold_spec (people : List Person)
    (hN : (people.map Person.id).Nodup) :
    ∀ (todo : List Person) (acc : List String × List (List Person)),
      CompInv people acc →
      CompInv people (todo.foldl (componentStep people) acc) ∧
      acc.1 ⊆ (todo.foldl (componentStep people) acc).1 ∧
      ∀ p ∈ todo, p.id ∈ (todo.foldl (componentStep people) acc).1 := by
  intro todo
  induction todo with
  | nil =>
    intro acc h
    exact ⟨h, fun x hx => hx, fun p hp => absurd hp (List.not_mem_nil p)⟩
  | cons person rest ih =>
    intro acc h
    have hstep := componentStep_inv people hN acc person h
    have hpid : person.id ∈ (componentStep people acc person).1 := by
      unfold componentStep
      split
      next hc => exact (contains_iff_mem _ _).1 hc
      next =>
        exact dfs_vis_start people _ person.id (acc.1, [])
    obtain ⟨hinv1, hsub1, hall1⟩ := ih (componentStep people acc person) hstep.1
    refine ⟨hinv1, fun x hx => hsub1 (hstep.2 hx), ?_⟩
    intro p hp
    rcases List.mem_cons.1 hp with rfl | hp
    · exact hsub1 hpid
    · exact hall1 p hp

/-- Under unique ids, the connected components collect every person
exactly once, and only persons of the collection. -/
theorem components_spec (people : List Person)
    (hN : (people.map Person.id).Nodup) :
    (∀ p ∈ people, p ∈ (findConnectedComponents people).flatten) ∧
    (((findConnectedComponents people).flatten).map Person.id).Nodup ∧
    (∀ p ∈ (findConnectedComponents people).flatten, p ∈ people) := by
  have h0 : CompInv people ([], []) := by
    refine ⟨?_, by simp, by simp⟩
    intro p _
    simp
  obtain ⟨⟨h1, h2, h3⟩, _, hall⟩ := comp_fold_spec people hN people ([], []) h0
  exact ⟨fun p hp => (h1 p hp).1 (hall p hp), h2, h3⟩

/-! ## C6 machinery: every component member ends up in the node map -/

theorem mapHas_iff (m : List LNode) (i : String) :
    mapHas m i = true ↔ i ∈ m.map LNode.id := by
  simp [mapHas, List.any_eq_true, List.mem_map]

theorem mapSet_keys_of_mem (m : List LNode) (n : LNode)
    (h : m.any (fun e => e.id == n.id) = true) :
    (mapSet m n).map LNode.id = m.map LNode.id := by
  unfold mapSet
  rw [if_pos h, List.map_map]
  apply List.map_congr_left
  intro e _
  simp only [Function.comp_apply]
  split
  next heq => exact (beq_iff_eq.1 heq).symm
  next => rfl

theorem mapSet_keys_mem (m : List LNode) (n : LNode) (i : String) :
    i ∈ (mapSet m n).map LNode.id ↔ i ∈ m.map LNode.id ∨ i = n.id := by
  by_cases hany : m.any (fun e => e.id == n.id) = true
  · rw [mapSet_keys_of_mem m n hany]
    have hn : n.id ∈ m.map LNode.id := by
      obtain ⟨e, he, heq⟩ := List.any_eq_true.1 hany
      exact List.mem_map.2 ⟨e, he, by simpa using heq⟩
    constructor
    · exact Or.inl
    · rintro (h | rfl)
      · exact h
      · exact hn
  · unfold mapSet
    rw [if_neg hany]
    simp

theorem mapSet_keys_nodup (m : List LNode) (n : LNode)
    (h : (m.map LNode.id).Nodup) : ((mapSet m n).map LNode.id).Nodup := by
  by_cases hany : m.any (fun e => e.id == n.id) = true
  · rw [mapSet_keys_of_mem m n hany]
    exact h
  · unfold mapSet
    rw [if_neg hany]
    have hnot : n.id ∉ m.map LNode.id := by
      intro hc
      obtain ⟨e, he, heq⟩ := List.mem_map.1 hc
      exact hany (List.any_eq_true.2 ⟨e, he, by simp [heq]⟩)
    rw [List.map_append, List.nodup_append]
    refine ⟨h, by simp, ?_⟩
    intro x hx hx2
    simp only [List.map_cons, List.map_nil, List.mem_singleton] at hx2
    exact hnot (hx2 ▸ hx)

theorem placeStraggler_keys_mem (comp : List Person) (m : List LNode)
    (p : Person) (i : String) :
    i ∈ (placeStraggler comp m p).map LNode.id ↔
      i ∈ m.map LNode.id ∨ i = p.id := by
  unfold placeStraggler
  exact mapSet_keys_mem m _ i

theorem placeStraggler_keys_nodup (comp : List Person) (m : List LNode)
    (p : Person) (h : (m.map LNode.id).Nodup) :
    ((placeStraggler comp m p).map LNode.id).Nodup := by
  unfold placeStraggler
  exact mapSet_keys_nodup m _ h

theorem foldl_place_nodup (comp : List Person) (l : List Person)
    (m : List LNode) (h : (m.map LNode.id).Nodup) :
    ((l.foldl (placeStraggler comp) m).map LNode.id).Nodup := by
  apply foldl_inv (I := fun m => (m.map LNode.id).Nodup) l m h
  intro m' p _ h'
  exact placeStraggler_keys_nodup comp m' p h'

theorem foldl_place_mono (comp : List Person) :
    ∀ (l : List Person) (m : List LNode) (i : String),
      i ∈ m.map LNode.id → i ∈ ((l.foldl (placeStraggler comp) m).map LNode.id) := by
  intro l
  induction l with
  | nil => intro m i hi; exact hi
  | cons q rest ih =>
    intro m i hi
    exact ih _ i ((placeStraggler_keys_mem comp m q i).2 (Or.inl hi))

theorem foldl_place_all (comp : List Person) :
    ∀ (l : List Person) (m : List LNode), ∀ p ∈ l,
      p.id ∈ ((l.foldl (placeStraggler comp) m).map LNode.id) := by
  intro l
  induction l with
  | nil => intro m p hp; cases hp
  | cons q rest ih =>
    intro m p hp
    rcases List.mem_cons.1 hp with rfl | hp
    · exact foldl_place_mono comp rest _ p.id
        ((placeStraggler_keys_mem comp m p p.id).2 (Or.inr rfl))
    · exact ih _ p hp

theorem foldl_place_bound (comp : List Person) :
    ∀ (l : List Person) (m : List LNode) (i : String),
      i ∈ ((l.foldl (placeStraggler comp) m).map LNode.id) →
      i ∈ m.map LNode.id ∨ ∃ p ∈ l, p.id = i := by
  intro l
  induction l with
  | nil => intro m i hi; exact Or.inl hi
  | cons q rest ih =>
    intro m i hi
    rcases ih _ i hi with hk | ⟨p, hp, rfl⟩
    · rcases (placeStraggler_keys_mem comp m q i).1 hk with hk2 | rfl
      · exact Or.inl hk2
      · exact Or.inr ⟨q, List.mem_cons_self q rest, rfl⟩
    · exact Or.inr ⟨p, List.mem_cons_of_mem q hp, rfl⟩

theorem stragglerPass_all (comp : List Person) (m : List LNode) :
    ∀ p ∈ comp, p.id ∈ ((stragglerPass comp m).map LNode.id) := by
  intro p hp
  unfold stragglerPass
  by_cases hhas : mapHas m p.id = true
  · exact foldl_place_mono comp _ m p.id ((mapHas_iff m p.id).1 hhas)
  · apply foldl_place_all comp _ m p
    apply List.mem_filter.2
    refine ⟨hp, ?_⟩
    simp [hhas]

theorem stragglerPass_bound (comp : List Person) (m : List LNode) (i : String)
    (hi : i ∈ ((stragglerPass comp m).map LNode.id)) :
    i ∈ m.map LNode.id ∨ ∃ p ∈ comp, p.id = i := by
  unfold stragglerPass at hi
  rcases foldl_place_bound comp _ m i hi with hk | ⟨p, hp, rfl⟩
  · exact Or.inl hk
  · exact Or.inr ⟨p, List.mem_of_mem_filter hp, rfl⟩

theorem stragglerPass_nodup (comp : List Person) (m : List LNode)
    (h : (m.map LNode.id).Nodup) :
    ((stragglerPass comp m).map LNode.id).Nodup :=
  foldl_place_nodup comp _ m h

/-- With the callers' fuel the straggler loop reaches its fixpoint: the
final keys are exactly the component ids (given it starts inside them). -/
theorem stragglerLoop_keys (comp : List Person) (m : List LNode)
    (hnd : (m.map LNode.id).Nodup)
    (hsub : ∀ i ∈ m.map LNode.id, i ∈ comp.map Person.id) :
    (((stragglerLoop (comp.length + 1) comp m).map LNode.id).Nodup ∧
     ∀ i, i ∈ ((stragglerLoop (comp.length + 1) comp m).map LNode.id) ↔
       i ∈ comp.map Person.id) := by
  simp only [stragglerLoop]
  split
  next hall =>
    refine ⟨hnd, fun i => ⟨fun hi => hsub i hi, fun hi => ?_⟩⟩
    obtain ⟨p, hp, rfl⟩ := List.mem_map.1 hi
    exact (mapHas_iff m p.id).1 (List.all_eq_true.1 hall p hp)
  next hall =>
    have hne : comp ≠ [] := by
      intro hc
      subst hc
      simp at hall
    have hlen : comp.length ≠ 0 := fun hc => hne (List.length_eq_zero.1 hc)
    obtain ⟨k, hk⟩ := Nat.exists_eq_succ_of_ne_zero hlen
    rw [hk]
    simp only [stragglerLoop]
    rw [if_pos ?hall2]
    case hall2 =>
      apply List.all_eq_true.2
      intro p hp
      exact (mapHas_iff _ p.id).2 (stragglerPass_all comp m p hp)
    refine ⟨stragglerPass_nodup comp m hnd, fun i => ⟨fun hi => ?_, fun hi => ?_⟩⟩
    · rcases stragglerPass_bound comp m i hi with hk2 | ⟨p, hp, rfl⟩
      · exact hsub i hk2
      · exact List.mem_map.2 ⟨p, hp, rfl⟩
    · obtain ⟨p, hp, rfl⟩ := List.mem_map.1 hi
      exact stragglerPass_all comp m p hp

theorem compEntries_ids (c : List Person) :
    (compEntries c).map EntitreeEntry.id = c.map Person.id := by
  simp [compEntries]

theorem foldl_mapSet_spec (P : String → Prop) :
    ∀ (nodes : List LNode) (m0 : List LNode),
      (∀ n ∈ nodes, P n.id) →
      ((m0.map LNode.id).Nodup ∧ ∀ i ∈ m0.map LNode.id, P i) →
      (((nodes.foldl mapSet m0).map LNode.id).Nodup ∧
       ∀ i ∈ (nodes.foldl mapSet m0).map LNode.id, P i) := by
  intro nodes m0 hnodes h0
  apply foldl_inv (I := fun m => (m.map LNode.id).Nodup ∧ ∀ i ∈ m.map LNode.id, P i)
    nodes m0 h0
  intro m n hn ⟨h1, h2⟩
  refine ⟨mapSet_keys_nodup m n h1, ?_⟩
  intro i hi
  rcases (mapSet_keys_mem m n i).1 hi with hk | rfl
  · exact h2 i hk
  · exact hnodes n hn

/-- The per-component node map holds exactly the component's ids, with no
duplicates, whenever the layout library only returns ids it was given. -/
theorem layoutComponent_keys (f : LayoutFn) (comp : List Person)
    (hfc : ∀ n ∈ f (rootIdOf comp) (compEntries comp),
      n.id ∈ comp.map Person.id) :
    (((layoutComponent f comp).map LNode.id).Nodup ∧
     ∀ i, i ∈ ((layoutComponent f comp).map LNode.id) ↔
       i ∈ comp.map Person.id) := by
  unfold layoutComponent
  have h0 := foldl_mapSet_spec (fun i => i ∈ comp.map Person.id)
    (f (rootIdOf comp) (compEntries comp)) [] hfc (by simp)
  exact stragglerLoop_keys comp _ h0.1 h0.2

/-- Left-to-right assembly of components: the resulting node-id list is
duplicate-free and holds exactly the previously accumulated ids plus the
ids of the persons in the components. -/
theorem layoutFold_keys (f : LayoutFn) :
    ∀ (comps : List (List Person)) (acc : List LNode × Int),
      ((acc.1.map LNode.id) ++ ((comps.flatten).map Person.id)).Nodup →
      (∀ c ∈ comps, ∀ n ∈ f (rootIdOf c) (compEntries c),
        n.id ∈ c.map Person.id) →
      (((comps.foldl (layoutFold f) acc).1.map LNode.id).Nodup ∧
       ∀ i, i ∈ ((comps.foldl (layoutFold f) acc).1.map LNode.id) ↔
         (i ∈ acc.1.map LNode.id ∨ i ∈ ((comps.flatten).map Person.id))) := by
  intro comps
  induction comps with
  | nil =>
    intro acc hN _
    refine ⟨by simpa using hN, ?_⟩
    intro i
    simp
  | cons c rest ih =>
    intro acc hN hfc
    have hcself := layoutComponent_keys f c
      (hfc c (List.mem_cons_self c rest))
    have hshift : ((layoutComponent f c).map
        (fun n : LNode => { n with x := n.x + acc.2 })).map LNode.id =
        (layoutComponent f c).map LNode.id := by
      rw [List.map_map]
      apply List.map_congr_left
      intro n _
      rfl
    have hacc1keys : (layoutFold f acc c).1.map LNode.id =
        acc.1.map LNode.id ++ (layoutComponent f c).map LNode.id := by
      show (acc.1 ++ (layoutComponent f c).map
        (fun n : LNode => { n with x := n.x + acc.2 })).map LNode.id = _
      rw [List.map_append, hshift]
    -- decompose the no-duplicates hypothesis
    have hNflat : ((acc.1.map LNode.id) ++
        ((c.map Person.id) ++ ((rest.flatten).map Person.id))).Nodup := by
      simpa using hN
    rw [List.nodup_append] at hNflat
    obtain ⟨hA, hCR, hdisjA⟩ := hNflat
    rw [List.nodup_append] at hCR
    obtain ⟨hC, hR, hdisjCR⟩ := hCR
    have hK := hcself.1
    have hKC := hcself.2
    -- no-duplicates hypothesis for the tail call
    have hN1 : (((layoutFold f acc c).1.map LNode.id) ++
        ((rest.flatten).map Person.id)).Nodup := by
      rw [hacc1keys, List.nodup_append]
      refine ⟨?_, hR, ?_⟩
      · rw [List.nodup_append]
        refine ⟨hA, hK, ?_⟩
        intro x hx hx2
        exact hdisjA hx (List.mem_append_left _ ((hKC x).1 hx2))
      · intro x hx hx2
        rcases List.mem_append.1 hx with hx | hx
        · exact hdisjA hx (List.mem_append_right _ hx2)
        · exact hdisjCR ((hKC x).1 hx) hx2
    have hrest := ih (layoutFold f acc c) hN1
      (fun d hd => hfc d (List.mem_cons_of_mem c hd))
    rw [List.foldl_cons]
    refine ⟨hrest.1, ?_⟩
    intro i
    rw [(hrest.2 i), hacc1keys]
    constructor
    · rintro (hm | hm)
      · rcases List.mem_append.1 hm with hm | hm
        · exact Or.inl hm
        · refine Or.inr ?_
          simp only [List.flatten_cons, List.map_append, List.mem_append]
          exact Or.inl ((hKC i).1 hm)
      · refine Or.inr ?_
        simp only [List.flatten_cons, List.map_append, List.mem_append]
        exact Or.inr hm
    · rintro (hm | hm)
      · exact Or.inl (List.mem_append_left _ hm)
      · simp only [List.flatten_cons, List.map_append, List.mem_append] at hm
        rcases hm with hm | hm
        · exact Or.inl (List.mem_append_right _ ((hKC i).2 hm))
        · exact Or.inr hm

/-- Shared C6/C9 core: for unique ids and a layout library that only
returns ids it was handed, the laid-out nodes carry exactly the person
ids, each once. -/
theorem layout_nodes_spec (f : LayoutFn) (people : List Person)
    (hN : (people.map Person.id).Nodup)
    (hf : ∀ root entries, ∀ n ∈ f root entries,
      n.id ∈ entries.map EntitreeEntry.id) :
    (((calculateLayout f people).1.map LNode.id).Nodup ∧
     ∀ i, i ∈ ((calculateLayout f people).1.map LNode.id) ↔
       i ∈ people.map Person.id) := by
  by_cases hp : people = []
  · subst hp
    refine ⟨by simp [calculateLayout], ?_⟩
    intro i
    simp [calculateLayout]
  · have hie : ¬(people.isEmpty = true) := fun h => hp (List.isEmpty_iff.1 h)
    have hcalc : (calculateLayout f people).1 =
        ((findConnectedComponents people).foldl (layoutFold f) ([], 0)).1 := by
      simp only [calculateLayout]
      rw [if_neg hie]
    obtain ⟨hflat_all, hflat_nodup, hflat_sub⟩ := components_spec people hN
    have hfc : ∀ c ∈ findConnectedComponents people,
        ∀ n ∈ f (rootIdOf c) (compEntries c), n.id ∈ c.map Person.id := by
      intro c hc n hn
      have := hf (rootIdOf c) (compEntries c) n hn
      rwa [compEntries_ids] at this
    have hkeys := layoutFold_keys f (findConnectedComponents people) ([], 0)
      (by simpa using hflat_nodup) hfc
    have hid : ∀ i, i ∈ (((findConnectedComponents people).flatten).map Person.id) ↔
        i ∈ people.map Person.id := by
      intro i
      constructor
      · intro hm
        obtain ⟨q, hq, rfl⟩ := List.mem_map.1 hm
        exact List.mem_map.2 ⟨q, hflat_sub q hq, rfl⟩
      · intro hm
        obtain ⟨p, hp2, rfl⟩ := List.mem_map.1 hm
        exact List.mem_map.2 ⟨p, hflat_all p hp2, rfl⟩
    rw [hcalc]
    refine ⟨hkeys.1, ?_⟩
    intro i
    rw [hkeys.2 i]
    simp only [List.map_nil, List.not_mem_nil, false_or]
    exact hid i

/-- C6: for every collection with unique ids (the Store invariant), and
every behaviour of the layout library that returns nodes only for the
entries it was given, `calculateLayout` terminates with exactly one
positioned node per person — the node-id list is duplicate-free and holds
precisely the person ids (cycles and dangling ids cannot make the fuelled
traversal diverge) — and the empty collection yields empty output. -/
theorem calculateLayout_total (f : LayoutFn) (people : List Person)
    (hN : (people.map Person.id).Nodup)
    (hf : ∀ root entries, ∀ n ∈ f root entries,
      n.id ∈ entries.map EntitreeEntry.id) :
    ((((calculateLayout f people).1.map LNode.id).Nodup ∧
      ∀ i, i ∈ ((calculateLayout f people).1.map LNode.id) ↔
        i ∈ people.map Person.id) ∧
     calculateLayout f [] = ([], [])) :=
  ⟨layout_nodes_spec f people hN hf, rfl⟩

/-- C6 witness: `calculateLayout_total` on a concrete snapshot with a
cyclic relationship (a person who is their own grandparent-cycle via b)
and a dangling reference. -/
theorem calculateLayout_total_witness :
    (((calculateLayout layoutNone
        [Person.mk "a" ["b"] ["b"] [] [], Person.mk "b" ["a"] ["a"] [] ["ghost"]]).1.map
          LNode.id).Nodup ∧
      ∀ i, i ∈ ((calculateLayout layoutNone
        [Person.mk "a" ["b"] ["b"] [] [], Person.mk "b" ["a"] ["a"] [] ["ghost"]]).1.map
          LNode.id) ↔
        i ∈ ([Person.mk "a" ["b"] ["b"] [] [],
          Person.mk "b" ["a"] ["a"] [] ["ghost"]].map Person.id)) ∧
    calculateLayout layoutNone [] = ([], []) :=
  calculateLayout_total layoutNone
    [Person.mk "a" ["b"] ["b"] [] [], Person.mk "b" ["a"] ["a"] [] ["ghost"]]
    (by decide) (fun root entries n hn => absurd hn (List.not_mem_nil n))

/-! ## C9: edge construction -/

/-- Modelled from the spec's edge-construction wording, restated against
the snapshot: one directed edge per `childIds` OCCURRENCE whose child id
belongs to the collection, then one partner edge per OCCURRENCE in the
concatenation `partnerIds ++ spouseIds` with `personId < partnerId` whose
partner id belongs to the collection.  (The spec says "per unordered pair
in `partnerIds ∪ spouseIds`"; the code walks the concatenation, so a pair
present in both lists is emitted twice — see the counterexample.) -/
def edgesFromSnapshot (people : List Person) : List LEdge :=
  people.flatMap (fun p =>
    p.childIds.filterMap (fun cid =>
      if (people.map Person.id).contains cid then
        some { id := "edge-" ++ p.id ++ "-" ++ cid, source := p.id,
               target := cid, etype := "smoothstep" }
      else none)) ++
  people.flatMap (fun p =>
    (p.partnerIds ++ p.spouseIds).filterMap (fun qid =>
      if strLtb p.id qid && (people.map Person.id).contains qid then
        some { id := "edge-partner-" ++ p.id ++ "-" ++ qid, source := p.id,
               target := qid, etype := "horizontal" }
      else none))

theorem flatMap_congr_mem {α β : Type _} {g h : α → List β} :
    ∀ (l : List α), (∀ a ∈ l, g a = h a) → l.flatMap g = l.flatMap h := by
  intro l
  induction l with
  | nil => intro _; rfl
  | cons x xs ih =>
    intro hgh
    simp only [List.flatMap_cons]
    rw [hgh x (List.mem_cons_self x xs),
      ih (fun a ha => hgh a (List.mem_cons_of_mem x ha))]

/-- The edge loops only inspect node-id membership, so any id list with
the same members as the snapshot ids produces the snapshot edges. -/
theorem buildEdges_of_same_members (people : List Person) (l : List String)
    (hl : ∀ i, i ∈ l ↔ i ∈ people.map Person.id) :
    buildEdges l people = edgesFromSnapshot people := by
  have hfe : l.contains = (people.map Person.id).contains := by
    funext x
    apply Bool.eq_iff_iff.2
    rw [contains_iff_mem, contains_iff_mem]
    exact hl x
  unfold buildEdges edgesFromSnapshot
  rw [hfe]
  have hmem : ∀ p ∈ people, (people.map Person.id).contains p.id = true :=
    fun p hp => (contains_iff_mem _ _).2 (List.mem_map.2 ⟨p, hp, rfl⟩)
  congr 1
  · apply flatMap_congr_mem
    intro p hp
    rw [if_pos (hmem p hp)]
  · apply flatMap_congr_mem
    intro p hp
    rw [if_pos (hmem p hp)]

/-- C9 (amended): the edge output equals the snapshot-side construction —
one directed edge per `childIds` occurrence with the child present, and
one partner edge per `partnerIds ++ spouseIds` occurrence with
`personId < partnerId` and the partner present (each person does get a
node, so the defensive endpoint check reduces to snapshot membership). -/
theorem calculateLayout_edges (f : LayoutFn) (people : List Person)
    (hN : (people.map Person.id).Nodup)
    (hf : ∀ root entries, ∀ n ∈ f root entries,
      n.id ∈ entries.map EntitreeEntry.id) :
    (calculateLayout f people).2 = edgesFromSnapshot people := by
  by_cases hp : people = []
  · subst hp
    rfl
  · have hie : ¬(people.isEmpty = true) := fun h => hp (List.isEmpty_iff.1 h)
    have hcalc : (calculateLayout f people).2 =
        buildEdges
          ((((findConnectedComponents people).foldl (layoutFold f) ([], 0)).1).map
            (fun n => n.id)) people := by
      simp only [calculateLayout]
      rw [if_neg hie]
    rw [hcalc]
    apply buildEdges_of_same_members
    intro i
    have hspec := (layout_nodes_spec f people hN hf).2 i
    have hcalc1 : (calculateLayout f people).1 =
        ((findConnectedComponents people).foldl (layoutFold f) ([], 0)).1 := by
      simp only [calculateLayout]
      rw [if_neg hie]
    rw [hcalc1] at hspec
    exact hspec

/-- C9 witness: `calculateLayout_edges` on the concrete two-partner
snapshot: one partner edge, no directed edges. -/
theorem calculateLayout_edges_witness :
    (calculateLayout layoutNone partnerPair).2 = edgesFromSnapshot partnerPair :=
  calculateLayout_edges layoutNone partnerPair (by decide)
    (fun root entries n hn => absurd hn (List.not_mem_nil n))

/-- C9 counterexample: the claim is false as stated; a pair related as
both partners and spouses lies once in `partnerIds ∪ spouseIds` but the
layout emits the undirected edge twice (identical edge records). -/
theorem partner_and_spouse_pair_double_edge :
    (calculateLayout layoutNone partnerSpousePair).2 =
      [LEdge.mk "edge-partner-a-b" "a" "b" "horizontal",
       LEdge.mk "edge-partner-a-b" "a" "b" "horizontal"] := by
  decide

end FamilyTree
